import Mathlib

/-!
Verification of the sp-ipld repository core: the IPLD data model, the
DAG-JSON codec, the multihash framing layer and the varint readers.

Conventions of the embedding:
* Rust `u8` bytes are `Nat` values; buffers originating from `Vec<u8>`
  carry the invariant that all elements are below 256 where it matters.
* Rust `u64` / `u8` / `i128` arithmetic is `Nat` / `Int` with explicit
  range checks where the source checks them.
* Fallible Rust functions returning `Result` become `Except`.
* `f64` values are represented by their IEEE-754 bit pattern (a `Nat`
  below `2 ^ 64`); finiteness and NaN-ness are decided from the bits.
-/

namespace SpIpld

instance {ε α : Type} [DecidableEq ε] [DecidableEq α] :
    DecidableEq (Except ε α) := fun a b =>
  match a, b with
  | .ok x, .ok y =>
    if h : x = y then isTrue (by rw [h])
    else isFalse (by intro hc; injection hc; contradiction)
  | .error e, .error f =>
    if h : e = f then isTrue (by rw [h])
    else isFalse (by intro hc; injection hc; contradiction)
  | .ok _, .error _ => isFalse (by intro hc; cases hc)
  | .error _, .ok _ => isFalse (by intro hc; cases hc)

/-! ## Byte cursor

Modelled from the spec: the `bytecursor::ByteCursor` crate is a
dependency of this repository whose source is not part of it; §4.2 of
the specification describes it as an owned `bytes + position` pair with
`read`, `read_exact` and `position` operations. -/

structure ByteCursor where
  buf : List Nat
  pos : Nat
deriving DecidableEq

/-- The bytes that remain to be read. -/
def ByteCursor.remaining (c : ByteCursor) : List Nat := c.buf.drop c.pos

/-- Models `read` into a one-byte destination: returns the byte and the advanced
cursor, or `none` at end of input (a zero-byte read count). -/
def ByteCursor.read1 (c : ByteCursor) : Option (Nat × ByteCursor) :=
  match c.buf.drop c.pos with
  | [] => none
  | b :: _ => some (b, ⟨c.buf, c.pos + 1⟩)

/-- Models `read` into a one-byte destination whose contents are discarded:
only the position advance is observable. -/
def ByteCursor.skip1 (c : ByteCursor) : ByteCursor :=
  if c.pos < c.buf.length then ⟨c.buf, c.pos + 1⟩ else c

/-- Models `read_exact` with an `n`-byte destination: fails when fewer than `n`
bytes remain. -/
def ByteCursor.readExact (c : ByteCursor) (n : Nat) :
    Option (List Nat × ByteCursor) :=
  if n ≤ (c.buf.drop c.pos).length then
    some ((c.buf.drop c.pos).take n, ⟨c.buf, c.pos + n⟩)
  else none

/-! ## Varints

`unsigned_varint::encode::u64` and `unsigned_varint::decode` are an
external dependency; the little-endian 7-bit-group format with the
continuation bit, and the `u64` overflow check, follow its documented
behaviour (spec §4.1). -/

/-- Models `unsigned_varint::decode::is_last`: the continuation bit is clear. -/
def isLastByte (b : Nat) : Bool := b % 256 < 128

/-- The value denoted by a little-endian sequence of 7-bit groups. -/
def lebValue : List Nat → Nat
  | [] => 0
  | b :: t => b % 128 + 128 * lebValue t

/-- Models `unsigned_varint::decode::u64` on a slice that ends with a
terminator byte: the decoded value, or overflow when it exceeds `u64`.
(A non-minimal-encoding rejection of newer crate versions is not
modelled; no claim depends on non-minimal varint input.) -/
inductive MhError where
  | invalidSize (n : Nat)
  | varintOverflow
deriving DecidableEq

def decodeU64 (bs : List Nat) : Except MhError Nat :=
  if lebValue bs < 2 ^ 64 then .ok (lebValue bs) else .error .varintOverflow

/-- The loop of `unsigned_varint::encode::u64`, fuelled by the 10-byte
buffer width: emit 7-bit groups with the continuation bit until the
value fits one group. -/
def minVarintAux : Nat → Nat → List Nat
  | 0, _ => []
  | fuel + 1, n =>
    if n < 128 then [n] else (n % 128 + 128) :: minVarintAux fuel (n / 128)

/-- Models `unsigned_varint::encode::u64`: the minimal varint encoding (every
`u64` fits the ten-byte buffer). -/
def minVarint (n : Nat) : List Nat := minVarintAux 10 n

/-- Models `sp_multihash::multihash::read_u64` (multihash/src/multihash.rs):
loop over at most 10 bytes, reading one byte at a time; a zero-byte read
is an overflow error; at the first terminator byte the collected bytes
are decoded. -/
def readU64Aux : Nat → ByteCursor → List Nat → Except MhError (Nat × ByteCursor)
  | 0, _, _ => .error .varintOverflow
  | fuel + 1, c, acc =>
    match c.read1 with
    | none => .error .varintOverflow
    | some (b, c') =>
      if isLastByte b then
        match decodeU64 (acc ++ [b]) with
        | .ok v => .ok (v, c')
        | .error _ => .error .varintOverflow
      else readU64Aux fuel c' (acc ++ [b])

def read_u64 (c : ByteCursor) : Except MhError (Nat × ByteCursor) :=
  readU64Aux 10 c []

/-! ## The sp-cid varint reader (sp-cid/src/lib.rs, `varint_read_u64`)

The source copies the first ten bytes of the underlying buffer into a
local array (indexing panics when the buffer is shorter), then calls
`varint_encode::u64(0, &mut buf)` — which overwrites the array with the
encoding of zero and returns that one-byte slice — and loops over that
slice, reading each cursor byte into a discarded temporary. An outcome
of the modelled reader is either a value, the `VarIntDecodeError`, or a
panic. -/

inductive SpOutcome (α : Type) where
  | ok (a : α)
  | err
  | panicked
deriving DecidableEq

/-- The loop body of `varint_read_u64`: `pending` is the not yet visited
part of the slice returned by the encoder, `done` the visited part. The
`unwrap` on `decode::u64` is modelled as a panic. -/
def spVarintLoop : List Nat → List Nat → ByteCursor → SpOutcome (Nat × ByteCursor)
  | [], _, _ => .err
  | b :: bs, done, r =>
    let r' := r.skip1
    if isLastByte b then
      match decodeU64 (done ++ [b]) with
      | .ok v => .ok (v, r')
      | .error _ => .panicked
    else spVarintLoop bs (done ++ [b]) r'

def varint_read_u64 (r : ByteCursor) : SpOutcome (Nat × ByteCursor) :=
  if r.buf.length < 10 then .panicked
  else spVarintLoop (minVarint 0) [] r

/-! ## Multihash (multihash/src/multihash.rs)

`S`, the allocated digest width, is fixed to 64 bytes (`sp_multihash::U64`),
the width the `sp_cid::Cid` alias instantiates. The `digest` field models
the whole `GenericArray<u8, S>` buffer, so it always has length 64; the
derived `PartialEq` of the source compares it in full, which structure
equality mirrors. -/

def allocSize : Nat := 64

structure Multihash where
  code : Nat
  size : Nat
  digest : List Nat
deriving DecidableEq

/-- Models `Multihash::digest()`: the used part of the buffer. -/
def Multihash.digestPart (m : Multihash) : List Nat := m.digest.take m.size

/-- Models `Multihash::wrap`. -/
def Multihash.wrap (code : Nat) (input : List Nat) : Except MhError Multihash :=
  if input.length > allocSize then .error (.invalidSize input.length)
  else .ok ⟨code, input.length, input ++ List.replicate (allocSize - input.length) 0⟩

/-- Models `read_multihash` composed with `Multihash::read`: code varint, size
varint, size bound check, digest bytes into a zeroed buffer. The
`read_exact` failure is mapped to a varint overflow as in the source. -/
def Multihash.read (c : ByteCursor) : Except MhError (Multihash × ByteCursor) :=
  match read_u64 c with
  | .error e => .error e
  | .ok (code, c1) =>
    match read_u64 c1 with
    | .error e => .error e
    | .ok (size, c2) =>
      if size > allocSize ∨ size > 255 then .error (.invalidSize size)
      else
        match c2.readExact size with
        | none => .error .varintOverflow
        | some (d, c3) =>
          .ok (⟨code, size, d ++ List.replicate (allocSize - size) 0⟩, c3)

/-- Models `Multihash::from_bytes`: `read`, with every read error widened to a
varint overflow, then the trailing-byte check
`bytes.len() >= r.position() + 1`. -/
def Multihash.from_bytes (bytes : List Nat) : Except MhError Multihash :=
  match Multihash.read ⟨bytes, 0⟩ with
  | .error _ => .error .varintOverflow
  | .ok (m, r) =>
    if bytes.length ≥ r.pos + 1 then .error (.invalidSize bytes.length)
    else .ok m

/-- Models `Multihash::to_bytes` and `write`: minimal varints of code and size
followed by the used digest bytes. -/
def Multihash.to_bytes (m : Multihash) : List Nat :=
  minVarint m.code ++ minVarint m.size ++ m.digestPart

/-- The data fed to the hasher by `impl Hash for Multihash`: the code and
only the used digest bytes, never the buffer tail. -/
def Multihash.hashInput (m : Multihash) : Nat × List Nat :=
  (m.code, m.digestPart)

/-- The invariant every publicly constructed multihash satisfies: the
size fits the allocation, the buffer has the allocated width, and the
unused tail is zero. -/
def Multihash.wfB (m : Multihash) : Bool :=
  decide (m.size ≤ allocSize) && decide (m.code < 2 ^ 64) &&
  decide (m.digest.length = allocSize) &&
  (m.digest.drop m.size).all (· = 0) && m.digest.all (· < 256)

/-- Produced by one of the public constructors (`wrap`, `read`,
`from_bytes`; `digest` of a hasher code goes through `wrap`). -/
def Multihash.fromCtor (m : Multihash) : Prop :=
  (∃ code input, Multihash.wrap code input = .ok m) ∨
  (∃ c r, Multihash.read c = .ok (m, r)) ∨
  (∃ bs, Multihash.from_bytes bs = .ok m)

/-- The buffer invariant behind every public constructor: the size fits
the allocation, the buffer has the allocated width, and the unused tail
is zero. -/
def Multihash.tailOk (m : Multihash) : Prop :=
  m.size ≤ allocSize ∧ m.digest.length = allocSize ∧
  m.digest.drop m.size = List.replicate (allocSize - m.size) 0

/-! ## IEEE-754 double bit patterns

`f64` values are carried as their bit pattern. Finiteness, NaN-ness and
the two zeros are decided from the exponent and mantissa fields. -/

def f64Exp (bits : Nat) : Nat := bits / 2 ^ 52 % 2 ^ 11

def f64IsFinite (bits : Nat) : Bool := decide (f64Exp bits ≠ 2047)

def f64IsNaN (bits : Nat) : Bool :=
  decide (f64Exp bits = 2047) && decide (bits % 2 ^ 52 ≠ 0)

/-- Rust `f64::eq` (IEEE-754 equality) on bit patterns below `2 ^ 64`:
NaN compares unequal to everything, the two zeros compare equal, and any
other pair of doubles is equal exactly when the bits coincide. -/
def f64Eq (a b : Nat) : Bool :=
  if f64IsNaN a || f64IsNaN b then false
  else a == b || (decide (a % 2 ^ 63 = 0) && decide (b % 2 ^ 63 = 0))

/-- Round-to-nearest-even conversion of an integer to a double bit
pattern; `serde_json` parses an integer literal outside the `u64`/`i64`
ranges as an `f64`. -/
def f64OfInt (i : Int) : Nat :=
  let sign : Nat := if i < 0 then 2 ^ 63 else 0
  let m := i.natAbs
  if m = 0 then 0
  else
    let k := Nat.log2 m
    if k ≤ 52 then sign + (k + 1023) * 2 ^ 52 + (m * 2 ^ (52 - k) - 2 ^ 52)
    else
      let shift := k - 52
      let q := m / 2 ^ shift
      let r := m % 2 ^ shift
      let half := 2 ^ (shift - 1)
      let q2 := if half < r ∨ (r = half ∧ q % 2 = 1) then q + 1 else q
      let mant := if q2 = 2 ^ 53 then 2 ^ 52 else q2
      let e := if q2 = 2 ^ 53 then k + 1 else k
      if 2047 ≤ e + 1023 then sign + 2047 * 2 ^ 52
      else sign + (e + 1023) * 2 ^ 52 + (mant - 2 ^ 52)

/-! ## Base64 (the `base64` crate, `STANDARD` config: padded, strict
trailing bits) -/

def b64Alphabet : List Char :=
  "ABCDEFGHIJKLMNOPQRSTUVWXYZabcdefghijklmnopqrstuvwxyz0123456789+/".toList

def b64Char (n : Nat) : Char := b64Alphabet.getD n 'A'

def b64CharDec (c : Char) : Option Nat := b64Alphabet.indexOf? c

def base64Encode : List Nat → List Char
  | a :: b :: c :: rest =>
    b64Char (a / 4) :: b64Char (a % 4 * 16 + b / 16) ::
      b64Char (b % 16 * 4 + c / 64) :: b64Char (c % 64) :: base64Encode rest
  | [a, b] =>
    [b64Char (a / 4), b64Char (a % 4 * 16 + b / 16), b64Char (b % 16 * 4), '=']
  | [a] => [b64Char (a / 4), b64Char (a % 4 * 16), '=', '=']
  | [] => []

def base64Decode : List Char → Except String (List Nat)
  | [] => .ok []
  | c1 :: c2 :: c3 :: c4 :: rest =>
    match b64CharDec c1, b64CharDec c2 with
    | some n1, some n2 =>
      if c3 = '=' then
        if c4 = '=' ∧ rest = [] then
          if n2 % 16 = 0 then .ok [n1 * 4 + n2 / 16]
          else .error "invalid trailing bits"
        else .error "invalid padding"
      else
        match b64CharDec c3 with
        | some n3 =>
          if c4 = '=' then
            if rest = [] then
              if n3 % 4 = 0 then .ok [n1 * 4 + n2 / 16, n2 % 16 * 16 + n3 / 4]
              else .error "invalid trailing bits"
            else .error "invalid padding"
          else
            match b64CharDec c4 with
            | some n4 =>
              match base64Decode rest with
              | .ok bs =>
                .ok ((n1 * 4 + n2 / 16) :: (n2 % 16 * 16 + n3 / 4) ::
                  (n3 % 4 * 64 + n4) :: bs)
              | .error e => .error e
            | none => .error "invalid char"
        | none => .error "invalid char"
    | _, _ => .error "invalid char"
  | _ => .error "invalid length"

/-! ## Base32 lower and base58btc text encoders

Modelled from the spec: the multibase alphabets are an external
collaborator (spec §4.3); these encoders realise the text form §4.5
prescribes for CIDs (base32-lower without padding for v1, base58btc for
v0). -/

def natBits (n w : Nat) : List Bool :=
  (List.range w).map (fun i => decide (n / 2 ^ (w - 1 - i) % 2 = 1))

def bitsVal (bs : List Bool) : Nat :=
  bs.foldl (fun acc b => acc * 2 + if b then 1 else 0) 0

def b32Alphabet : List Char := "abcdefghijklmnopqrstuvwxyz234567".toList

def b32Group (bits : List Bool) : List Nat :=
  match bits with
  | [] => []
  | b :: rest =>
    let g := (b :: rest).take 5
    bitsVal (g ++ List.replicate (5 - g.length) false) :: b32Group ((b :: rest).drop 5)
termination_by bits.length
decreasing_by
  simp [List.length_drop]
  omega

def base32Encode (bs : List Nat) : List Char :=
  (b32Group ((bs.map (fun b => natBits b 8)).flatten)).map
    (fun d => b32Alphabet.getD d 'a')

def base58Alphabet : List Char :=
  "123456789ABCDEFGHJKLMNPQRSTUVWXYZabcdefghijkmnopqrstuvwxyz".toList

def base58Digits (n : Nat) : List Nat :=
  if _h : n = 0 then [] else base58Digits (n / 58) ++ [n % 58]
termination_by n
decreasing_by exact Nat.div_lt_self (by omega) (by omega)

def base58Encode (bs : List Nat) : List Char :=
  List.replicate (bs.takeWhile (· = 0)).length '1' ++
    (base58Digits (bs.foldl (fun acc b => acc * 256 + b) 0)).map
      (fun d => base58Alphabet.getD d '1')

/-! ## CID

Modelled from the spec: `sp-cid/src/cid.rs` is not part of the provided
sources (only `sp-cid/src/lib.rs` is); the `Cid` structure, its binary
form, its parser and its text form follow spec §4.5. -/

inductive CidVersion where
  | v0
  | v1
deriving DecidableEq

structure Cid where
  version : CidVersion
  codec : Nat
  hash : Multihash
deriving DecidableEq

def Cid.new_v1 (codec : Nat) (h : Multihash) : Cid := ⟨.v1, codec, h⟩

/-- Binary form (spec §4.5): v0 is the raw multihash, v1 is
`varint(1) ‖ varint(codec) ‖ multihash`. -/
def Cid.toBytes (c : Cid) : List Nat :=
  match c.version with
  | .v0 => c.hash.to_bytes
  | .v1 => minVarint 1 ++ minVarint c.codec ++ c.hash.to_bytes

inductive CidError where
  | invalidCidVersion
  | invalidCidV0Multihash
  | varintOverflow
  | invalidMultihash
  | trailingBytes
deriving DecidableEq

/-- Binary-form parser (spec §4.5): a 34-byte input starting `0x12 0x20`
is a v0 CID; otherwise `varint(version = 1)`, `varint(codec)`, then a
multihash, with trailing bytes rejected (spec §8, strict framing). -/
def Cid.fromBytes (bytes : List Nat) : Except CidError Cid :=
  if bytes.length = 34 ∧ bytes.getD 0 0 = 0x12 ∧ bytes.getD 1 0 = 0x20 then
    match Multihash.from_bytes bytes with
    | .ok mh => .ok ⟨.v0, 0x70, mh⟩
    | .error _ => .error .invalidCidV0Multihash
  else
    match read_u64 ⟨bytes, 0⟩ with
    | .error _ => .error .varintOverflow
    | .ok (v, c1) =>
      if v ≠ 1 then .error .invalidCidVersion
      else
        match read_u64 c1 with
        | .error _ => .error .varintOverflow
        | .ok (codec, c2) =>
          match Multihash.read c2 with
          | .error _ => .error .invalidMultihash
          | .ok (mh, c3) =>
            if c3.pos < bytes.length then .error .trailingBytes
            else .ok ⟨.v1, codec, mh⟩

/-- The type invariant of a Rust `Cid` value: field ranges and the
multihash buffer invariant; a v0 CID additionally carries the dag-pb
codec and a sha2-256 multihash of 32 bytes. -/
def Cid.wfB (c : Cid) : Bool :=
  match c.version with
  | .v1 => decide (c.codec < 2 ^ 64) && c.hash.wfB
  | .v0 =>
    decide (c.codec = 0x70) && decide (c.hash.code = 0x12) &&
      decide (c.hash.size = 32) && c.hash.wfB

/-- Text form (spec §4.5): v0 is base58btc of the multihash with no
multibase tag; v1 is multibase base32-lower (tag `b`) of the byte form. -/
def Cid.toText (c : Cid) : List Char :=
  match c.version with
  | .v0 => base58Encode c.hash.to_bytes
  | .v1 => 'b' :: base32Encode c.toBytes

/-! ## The IPLD value (src/src/ipld.rs)

`Vec<Ipld>` and `BTreeMap<String, Ipld>` become cons-lists so that the
mutual structural recursion of the source's encoders is mirrored
directly; a `BTreeMap` is a strictly-sorted association list. Rust
orders `String` keys by their UTF-8 bytes; `String < String` in this
file is the codepoint order, which coincides with UTF-8 byte order. -/

mutual
inductive Ipld where
  | null
  | bool (b : Bool)
  | integer (i : Int)
  | float (bits : Nat)
  | str (s : String)
  | bytes (bs : List Nat)
  | list (xs : IpldSeq)
  | stringMap (m : IpldAssoc)
  | link (c : Cid)
deriving DecidableEq
inductive IpldSeq where
  | nil
  | cons (hd : Ipld) (tl : IpldSeq)
deriving DecidableEq
inductive IpldAssoc where
  | nil
  | cons (k : String) (v : Ipld) (tl : IpldAssoc)
deriving DecidableEq
end

def IpldSeq.toList : IpldSeq → List Ipld
  | .nil => []
  | .cons h t => h :: t.toList

def IpldAssoc.entries : IpldAssoc → List (String × Ipld)
  | .nil => []
  | .cons k v t => (k, v) :: t.entries

def IpldAssoc.valuesList : IpldAssoc → List Ipld
  | .nil => []
  | .cons _ v t => v :: t.valuesList

/-- The `BTreeMap` key invariant: keys strictly ascending. -/
def assocSortedB : IpldAssoc → Bool
  | .nil => true
  | .cons _ _ .nil => true
  | .cons k _ (.cons k2 v2 tl) => decide (k < k2) && assocSortedB (.cons k2 v2 tl)

/-- Models `BTreeMap::insert`: ordered insertion, replacing the value of an
equal key. -/
def assocInsert : IpldAssoc → String → Ipld → IpldAssoc
  | .nil, k, v => .cons k v .nil
  | .cons k2 v2 tl, k, v =>
    if k < k2 then .cons k v (.cons k2 v2 tl)
    else if k = k2 then .cons k2 v tl
    else .cons k2 v2 (assocInsert tl k v)

/-- Models `Vec<(String, Ipld)>::into_iter().collect::<BTreeMap<_, _>>()`. -/
def fromEntries (es : List (String × Ipld)) : IpldAssoc :=
  es.foldl (fun m kv => assocInsert m kv.1 kv.2) .nil

/-- Concatenation of association lists (a proof device). -/
def assocConcat : IpldAssoc → IpldAssoc → IpldAssoc
  | .nil, n => n
  | .cons k v t, n => .cons k v (assocConcat t n)

/-! ## The JSON tree (serde_json)

`serde_json` is an external dependency: its printer and parser are
modelled as the identity on this tree type. A number node records how
the parser classifies the token: `int` for an integer literal (printed
by `serialize_i128`/`serialize_u64`), `float` for a fractional or
exponent literal (printed by `ryu` from a finite double, which
round-trips bit-exactly). Object nodes keep document order and may hold
duplicate keys. -/

mutual
inductive Json where
  | null
  | bool (b : Bool)
  | int (i : Int)
  | float (bits : Nat)
  | str (s : String)
  | arr (xs : JsonSeq)
  | obj (kvs : JsonObj)
deriving DecidableEq
inductive JsonSeq where
  | nil
  | cons (hd : Json) (tl : JsonSeq)
deriving DecidableEq
inductive JsonObj where
  | nil
  | cons (k : String) (v : Json) (tl : JsonObj)
deriving DecidableEq
end

/-! ## DAG-JSON encoding (src/src/dag_json/codec.rs, `Serialize for Ipld`) -/

mutual
def encodeJson : Ipld → Json
  | .null => .null
  | .bool b => .bool b
  | .integer i => .int i
  | .float bits => if f64IsFinite bits then .float bits else .null
  | .str s => .str s
  | .bytes bs =>
    .obj (.cons "/" (.obj (.cons "bytes" (.str (String.mk (base64Encode bs))) .nil)) .nil)
  | .list xs => .arr (encodeJsonSeq xs)
  | .stringMap m => .obj (encodeJsonAssoc m)
  | .link c => .obj (.cons "/" (.str (String.mk (base64Encode c.toBytes))) .nil)
def encodeJsonSeq : IpldSeq → JsonSeq
  | .nil => .nil
  | .cons h t => .cons (encodeJson h) (encodeJsonSeq t)
def encodeJsonAssoc : IpldAssoc → JsonObj
  | .nil => .nil
  | .cons k v t => .cons k (encodeJson v) (encodeJsonAssoc t)
end

/-- Models `encode` (src/src/dag_json/codec.rs): `serde_json::to_string` on the
serializer above; that serializer never errs (all map keys are strings),
so the result is always `Ok`. -/
def dagJsonEncode (ipld : Ipld) : Except String Json := .ok (encodeJson ipld)

/-! ## DAG-JSON decoding (src/src/dag_json/codec.rs, `JsonVisitor`) -/

/-- The tail of `JsonVisitor::visit_map` once the entries are decoded:
a single entry `("/", String v)` is a link (base64 of the CID bytes); a
single entry `("/", map)` whose first key/value pair is
`("bytes", String s)` is a bytes escape; anything else collects into a
`BTreeMap`. -/
def decodeObjEntries (entries : List (String × Ipld)) : Except String Ipld :=
  match entries with
  | [(k, v)] =>
    match v with
    | .str sv =>
      if k = "/" then
        match base64Decode sv.toList with
        | .error _ => .error "invalid base64 in link escape"
        | .ok link =>
          match Cid.fromBytes link with
          | .error _ => .error "invalid cid in link escape"
          | .ok cid => .ok (.link cid)
      else .ok (.stringMap (fromEntries [(k, .str sv)]))
    | .stringMap (.cons k2 (.str s) rest) =>
      if k = "/" ∧ k2 = "bytes" then
        match base64Decode s.toList with
        | .error _ => .error "invalid base64 in bytes escape"
        | .ok bs => .ok (.bytes bs)
      else .ok (.stringMap (fromEntries [(k, .stringMap (.cons k2 (.str s) rest))]))
    | other => .ok (.stringMap (fromEntries [(k, other)]))
  | es => .ok (.stringMap (fromEntries es))

mutual
def decodeJson : Json → Except String Ipld
  | .null => .ok .null
  | .bool b => .ok (.bool b)
  | .int i =>
    if 0 ≤ i ∧ i < 2 ^ 64 then .ok (.integer i)
    else if -2 ^ 63 ≤ i ∧ i < 0 then .ok (.integer i)
    else .ok (.float (f64OfInt i))
  | .float bits => .ok (.float bits)
  | .str s => .ok (.str s)
  | .arr xs =>
    match decodeJsonSeq xs with
    | .error e => .error e
    | .ok l => .ok (.list l)
  | .obj kvs =>
    match decodeJsonEntries kvs with
    | .error e => .error e
    | .ok entries => decodeObjEntries entries
def decodeJsonSeq : JsonSeq → Except String IpldSeq
  | .nil => .ok .nil
  | .cons h t =>
    match decodeJson h with
    | .error e => .error e
    | .ok ih =>
      match decodeJsonSeq t with
      | .error e => .error e
      | .ok it => .ok (.cons ih it)
def decodeJsonEntries : JsonObj → Except String (List (String × Ipld))
  | .nil => .ok []
  | .cons k v t =>
    match decodeJson v with
    | .error e => .error e
    | .ok iv =>
      match decodeJsonEntries t with
      | .error e => .error e
      | .ok rest => .ok ((k, iv) :: rest)
end

/-! ## Conditions under which the DAG-JSON round trip is exact -/

/-- A map whose shape collides with the link or bytes escape forms
recognised by `visit_map`. -/
def escapeClash (m : IpldAssoc) : Bool :=
  match m with
  | .cons k (.str _) .nil => k == "/"
  | .cons k (.stringMap (.cons k2 (.str _) _)) .nil => k == "/" && k2 == "bytes"
  | _ => false

mutual
def goodIpld : Ipld → Bool
  | .null => true
  | .bool _ => true
  | .integer i => decide (-2 ^ 53 ≤ i) && decide (i ≤ 2 ^ 53)
  | .float bits => decide (bits < 2 ^ 64) && f64IsFinite bits
  | .str _ => true
  | .bytes bs => bs.all (fun b => decide (b < 256))
  | .list xs => goodSeq xs
  | .stringMap m => assocSortedB m && !escapeClash m && goodAssoc m
  | .link c => c.wfB
def goodSeq : IpldSeq → Bool
  | .nil => true
  | .cons h t => goodIpld h && goodSeq t
def goodAssoc : IpldAssoc → Bool
  | .nil => true
  | .cons _ v t => goodIpld v && goodAssoc t
end

/-! ## Structural equality of `Ipld` (the derived `PartialEq`)

The derive compares variants componentwise; on `Float` it is `f64::eq`,
IEEE-754 equality. -/

mutual
def ipldEq : Ipld → Ipld → Bool
  | .null, .null => true
  | .bool a, .bool b => a == b
  | .integer a, .integer b => a == b
  | .float a, .float b => f64Eq a b
  | .str a, .str b => a == b
  | .bytes a, .bytes b => a == b
  | .list a, .list b => seqEq a b
  | .stringMap a, .stringMap b => assocEqB a b
  | .link a, .link b => a == b
  | _, _ => false
def seqEq : IpldSeq → IpldSeq → Bool
  | .nil, .nil => true
  | .cons h t, .cons h2 t2 => ipldEq h h2 && seqEq t t2
  | _, _ => false
def assocEqB : IpldAssoc → IpldAssoc → Bool
  | .nil, .nil => true
  | .cons k v t, .cons k2 v2 t2 => k == k2 && ipldEq v v2 && assocEqB t t2
  | _, _ => false
end

mutual
def noNaN : Ipld → Bool
  | .float bits => !f64IsNaN bits
  | .list xs => noNaNSeq xs
  | .stringMap m => noNaNAssoc m
  | _ => true
def noNaNSeq : IpldSeq → Bool
  | .nil => true
  | .cons h t => noNaN h && noNaNSeq t
def noNaNAssoc : IpldAssoc → Bool
  | .nil => true
  | .cons _ v t => noNaN v && noNaNAssoc t
end

/-! ## Traversal (src/src/ipld.rs, `Ipld::iter` and `IpldIter`) -/

mutual
def ipldSize : Ipld → Nat
  | .list xs => 1 + seqSize xs
  | .stringMap m => 1 + assocSize m
  | _ => 1
def seqSize : IpldSeq → Nat
  | .nil => 0
  | .cons h t => ipldSize h + seqSize t
def assocSize : IpldAssoc → Nat
  | .nil => 0
  | .cons _ v t => ipldSize v + assocSize t
end

/-- The sub-iterator pushed for a value: `List` pushes its elements,
`StringMap` pushes `map.values()` (ascending key order), everything
else — including `Link` — pushes nothing. -/
def childrenList : Ipld → List Ipld
  | .list xs => xs.toList
  | .stringMap m => m.valuesList
  | _ => []

def nodesOf (l : List Ipld) : Nat := (l.map ipldSize).sum

/-- The sum `nodesOf` over a sequence converted to a list is `seqSize`. -/
def nodesOfToList : (s : IpldSeq) → nodesOf s.toList = seqSize s
  | .nil => by simp [IpldSeq.toList, nodesOf, seqSize]
  | .cons h t => by
    have ih := nodesOfToList t
    simp only [IpldSeq.toList, nodesOf, List.map_cons, List.sum_cons, seqSize] at ih ⊢
    omega

/-- The sum `nodesOf` over the values of an association list is `assocSize`. -/
def nodesOfValues : (a : IpldAssoc) → nodesOf a.valuesList = assocSize a
  | .nil => by simp [IpldAssoc.valuesList, nodesOf, assocSize]
  | .cons k v t => by
    have ih := nodesOfValues t
    simp only [IpldAssoc.valuesList, nodesOf, List.map_cons, List.sum_cons,
      assocSize] at ih ⊢
    omega

/-- A value holds one more node than its children list. -/
def ipldSize_children : (x : Ipld) → ipldSize x = 1 + nodesOf (childrenList x)
  | .null => by simp [ipldSize, childrenList, nodesOf]
  | .bool _ => by simp [ipldSize, childrenList, nodesOf]
  | .integer _ => by simp [ipldSize, childrenList, nodesOf]
  | .float _ => by simp [ipldSize, childrenList, nodesOf]
  | .str _ => by simp [ipldSize, childrenList, nodesOf]
  | .bytes _ => by simp [ipldSize, childrenList, nodesOf]
  | .list xs => by simp [ipldSize, childrenList, nodesOfToList xs]
  | .stringMap m => by simp [ipldSize, childrenList, nodesOfValues m]
  | .link _ => by simp [ipldSize, childrenList, nodesOf]

/-- The drained output of the `IpldIter` stack machine (`next` in
src/src/ipld.rs): the head of the stack list is the top iterator. -/
def drain : List (List Ipld) → List Ipld
  | [] => []
  | [] :: rest => drain rest
  | (x :: xs) :: rest => x :: drain (childrenList x :: xs :: rest)
termination_by stack => 2 * (stack.map nodesOf).sum + stack.length
decreasing_by
  · simp only [List.map_cons, List.sum_cons, List.length_cons, nodesOf,
      List.map_nil, List.sum_nil]
    omega
  · have hx := ipldSize_children x
    simp only [List.map_cons, List.sum_cons, List.length_cons, nodesOf] at hx ⊢
    omega

/-- Models `Ipld::iter`: the stack starts with an iterator over `[self]`. -/
def iterList (v : Ipld) : List Ipld := drain [[v]]

/-- Models `Ipld::references`: walk `iter()` and extend the set with every
`Link`'s CID, in traversal order. -/
def referencesList (v : Ipld) : List Cid :=
  (iterList v).foldl
    (fun acc x =>
      match x with
      | .link c => acc ++ [c]
      | _ => acc) []

/-! The specification's description of the traversal: pre-order, the
root first, descending into `List` elements and `StringMap` values but
not into `Link`. -/

mutual
def preorder : Ipld → List Ipld
  | .list xs => .list xs :: preorderSeq xs
  | .stringMap m => .stringMap m :: preorderAssoc m
  | v => [v]
def preorderSeq : IpldSeq → List Ipld
  | .nil => []
  | .cons h t => preorder h ++ preorderSeq t
def preorderAssoc : IpldAssoc → List Ipld
  | .nil => []
  | .cons _ v t => preorder v ++ preorderAssoc t
end

/-! ## DAG-CBOR encoding

Modelled from the spec: `src/src/dag_cbor/encode.rs` is not part of the
provided sources (src/src/dag_cbor.rs only declares the module); the
byte-level encoding follows the table of spec §4.8. -/

/-- Big-endian bytes of `n` in `w` bytes. -/
def beBytes (n w : Nat) : List Nat :=
  (List.range w).map (fun i => n / 2 ^ (8 * (w - 1 - i)) % 256)

/-- A CBOR head: major type and smallest-width argument. -/
def cborHead (major n : Nat) : List Nat :=
  if n ≤ 23 then [major * 32 + n]
  else if n < 2 ^ 8 then [major * 32 + 24, n]
  else if n < 2 ^ 16 then (major * 32 + 25) :: beBytes n 2
  else if n < 2 ^ 32 then (major * 32 + 26) :: beBytes n 4
  else (major * 32 + 27) :: beBytes n 8

def utf8Bytes (s : String) : List Nat := s.toUTF8.toList.map (fun b => b.toNat)

mutual
def cborEncode : Ipld → Except String (List Nat)
  | .null => .ok [0xf6]
  | .bool false => .ok [0xf4]
  | .bool true => .ok [0xf5]
  | .integer i =>
    if 0 ≤ i then
      if i ≤ 2 ^ 64 - 1 then .ok (cborHead 0 i.toNat)
      else .error "NumberOutOfRange"
    else
      if -2 ^ 64 ≤ i then .ok (cborHead 1 (-1 - i).toNat)
      else .error "NumberOutOfRange"
  | .float bits => .ok (0xfb :: beBytes bits 8)
  | .str s => .ok (cborHead 3 (utf8Bytes s).length ++ utf8Bytes s)
  | .bytes bs => .ok (cborHead 2 bs.length ++ bs)
  | .list xs =>
    match cborEncodeSeq xs with
    | .error e => .error e
    | .ok (n, body) => .ok (cborHead 4 n ++ body)
  | .stringMap m =>
    match cborEncodeAssoc m with
    | .error e => .error e
    | .ok (n, body) => .ok (cborHead 5 n ++ body)
  | .link c =>
    .ok (cborHead 6 42 ++ cborHead 2 (c.toBytes.length + 1) ++ (0x00 :: c.toBytes))
def cborEncodeSeq : IpldSeq → Except String (Nat × List Nat)
  | .nil => .ok (0, [])
  | .cons h t =>
    match cborEncode h with
    | .error e => .error e
    | .ok hb =>
      match cborEncodeSeq t with
      | .error e => .error e
      | .ok (n, tb) => .ok (n + 1, hb ++ tb)
def cborEncodeAssoc : IpldAssoc → Except String (Nat × List Nat)
  | .nil => .ok (0, [])
  | .cons k v t =>
    match cborEncode v with
    | .error e => .error e
    | .ok vb =>
      match cborEncodeAssoc t with
      | .error e => .error e
      | .ok (n, tb) =>
        .ok (n + 1, (cborHead 3 (utf8Bytes k).length ++ utf8Bytes k) ++ vb ++ tb)
end

/-! ## CID construction for a value (src/src/dag_cbor.rs and
src/src/dag_json.rs, `cid`)

The Blake2b-256 hasher is an external collaborator consumed through the
digest interface, so it is a parameter; `render` abstracts the JSON text
printer whose output bytes the DAG-JSON `cid` digests. -/

def blake2b256Code : Nat := 0xb220

/-- Models `dag_cbor::cid`: Blake2b-256 over the DAG-CBOR encoding, wrapped as
CID v1 with codec `0x71`; the source unwraps the encoding, modelled as
error propagation. -/
def dagCborCid (blake2b256 : List Nat → List Nat) (x : Ipld) :
    Except String Cid :=
  match cborEncode x with
  | .error e => .error e
  | .ok bytes =>
    match Multihash.wrap blake2b256Code (blake2b256 bytes) with
    | .error _ => .error "digest too wide"
    | .ok mh => .ok (Cid.new_v1 0x71 mh)

/-- Models `dag_json::cid`: Blake2b-256 over the DAG-JSON encoding, wrapped as
CID v1 with codec `0x0129`. -/
def dagJsonCid (blake2b256 : List Nat → List Nat) (render : Json → List Nat)
    (dag : Ipld) : Except String Cid :=
  match Multihash.wrap blake2b256Code (blake2b256 (render (encodeJson dag))) with
  | .error _ => .error "digest too wide"
  | .ok mh => .ok (Cid.new_v1 0x0129 mh)

/-! ## Codec markers (src/src/dag_cbor.rs, src/src/dag_json.rs) -/

structure UnsupportedCodec where
  code : Nat
deriving DecidableEq

inductive DagCborCodec where
  | mk
deriving DecidableEq

inductive DagJsonCodec where
  | mk
deriving DecidableEq

def DagCborCodec.intoU64 : DagCborCodec → Nat := fun _ => 0x71

def DagJsonCodec.intoU64 : DagJsonCodec → Nat := fun _ => 0x0129

/-- Models `TryFrom<u64> for DagCborCodec`: the implementation ignores the code
and always succeeds. -/
def DagCborCodec.tryFrom (_ : Nat) : Except UnsupportedCodec DagCborCodec :=
  .ok .mk

/-- Models `TryFrom<u64> for DagJsonCodec`: the implementation ignores the code
and always succeeds. -/
def DagJsonCodec.tryFrom (_ : Nat) : Except UnsupportedCodec DagJsonCodec :=
  .ok .mk

/-- Pre-order traversal of every element of a list in turn. -/
def preorderList : List Ipld → List Ipld
  | [] => []
  | x :: xs => preorder x ++ preorderList xs

/-- Pre-order traversal of a whole iterator stack. -/
def preorderStack : List (List Ipld) → List Ipld
  | [] => []
  | l :: rest => preorderList l ++ preorderStack rest

/-! ## Concrete values used by witnesses and counterexamples -/

/-- The bit pattern of the canonical `f64` NaN. -/
def nanBits : Nat := 0x7ff8000000000000

/-- The bit pattern of `f64` positive infinity. -/
def infBits : Nat := 0x7ff0000000000000

/-- A small well-formed v1 CID (codec dag-cbor, a two-byte digest). -/
def exCidV1 : Cid := ⟨.v1, 0x71, ⟨0, 2, [1, 2] ++ List.replicate 62 0⟩⟩

/-- A value exercising every DAG-JSON encoder branch. -/
def exIpldBig : Ipld :=
  .list (.cons .null (.cons (.bool true) (.cons (.integer 7)
    (.cons (.str "a") (.cons (.bytes [1, 2, 3])
    (.cons (.stringMap (.cons "k" (.float 0) .nil))
    (.cons (.link exCidV1) .nil)))))))

/-- A multihash as produced by `Multihash::wrap(5, [1, 2, 3])`. -/
def exMh : Multihash := ⟨5, 3, [1, 2, 3] ++ List.replicate 61 0⟩

/-! ### Varint round-trip lemmas -/

theorem minVarintAux_length (fuel : Nat) :
    ∀ n : Nat, (minVarintAux fuel n).length ≤ fuel := by
  induction fuel with
  | zero =>
    intro n
    simp [minVarintAux]
  | succ fuel ih =>
    intro n
    simp only [minVarintAux]
    split
    · simp
    · simp only [List.length_cons]
      have := ih (n / 128)
      omega

theorem lebValue_minVarintAux (fuel : Nat) :
    ∀ n : Nat, 0 < fuel → n < 128 ^ fuel →
    lebValue (minVarintAux fuel n) = n := by
  induction fuel with
  | zero =>
    intro n h
    omega
  | succ fuel ih =>
    intro n _ hn
    simp only [minVarintAux]
    split
    · rename_i h
      simp [lebValue]
      omega
    · rename_i h
      have hf : 0 < fuel := by
        rcases Nat.eq_zero_or_pos fuel with h0 | h0
        · subst h0
          norm_num at hn
          omega
        · exact h0
      have hdiv : n / 128 < 128 ^ fuel := by
        rw [Nat.div_lt_iff_lt_mul (by norm_num)]
        rw [pow_succ] at hn
        omega
      simp only [lebValue, ih (n / 128) hf hdiv]
      omega

theorem minVarint_mem_lt (n : Nat) : ∀ b ∈ minVarint n, b < 256 := by
  unfold minVarint
  generalize 10 = fuel
  induction fuel generalizing n with
  | zero =>
    intro b hb
    simp [minVarintAux] at hb
  | succ fuel ih =>
    intro b hb
    simp only [minVarintAux] at hb
    split at hb
    · rename_i h
      simp at hb
      omega
    · rcases List.mem_cons.mp hb with h1 | h1
      · omega
      · exact ih (n / 128) b h1

theorem readU64Aux_minVarintAux (fe : Nat) :
    ∀ (n : Nat) (rest acc : List Nat) (fuel : Nat) (c : ByteCursor),
    0 < fe → n < 128 ^ fe →
    (minVarintAux fe n).length ≤ fuel →
    c.buf.drop c.pos = minVarintAux fe n ++ rest →
    lebValue (acc ++ minVarintAux fe n) < 2 ^ 64 →
    readU64Aux fuel c acc =
      .ok (lebValue (acc ++ minVarintAux fe n),
        ⟨c.buf, c.pos + (minVarintAux fe n).length⟩) := by
  induction fe with
  | zero =>
    intro n rest acc fuel c hfe
    omega
  | succ fe ih =>
    intro n rest acc fuel c _ hn hfuel hdrop hval
    simp only [minVarintAux] at hfuel hdrop hval ⊢
    by_cases h : n < 128
    · simp only [h, if_true, List.length_singleton] at hfuel hdrop hval ⊢
      cases fuel with
      | zero => omega
      | succ fuel =>
        simp only [readU64Aux, ByteCursor.read1]
        rw [List.singleton_append] at hdrop
        rw [hdrop]
        have hlast : isLastByte n = true := by
          simp [isLastByte]
          omega
        simp only [hlast, if_true]
        have h64 : lebValue (acc ++ [n]) < 2 ^ 64 := hval
        simp only [decodeU64, h64, if_pos]
    · simp only [h, if_false, List.length_cons] at hfuel hdrop hval ⊢
      cases fuel with
      | zero => omega
      | succ fuel =>
        have hf : 0 < fe := by
          rcases Nat.eq_zero_or_pos fe with h0 | h0
          · subst h0
            norm_num at hn
            omega
          · exact h0
        have hdiv : n / 128 < 128 ^ fe := by
          rw [Nat.div_lt_iff_lt_mul (by norm_num)]
          rw [pow_succ] at hn
          omega
        simp only [readU64Aux, ByteCursor.read1]
        rw [List.cons_append] at hdrop
        rw [hdrop]
        have hnotlast : isLastByte (n % 128 + 128) = false := by
          simp [isLastByte]
          omega
        simp only [hnotlast, Bool.false_eq_true, if_false]
        have hdrop2 : c.buf.drop (c.pos + 1) = minVarintAux fe (n / 128) ++ rest := by
          have h1 : c.buf.drop (c.pos + 1) = (c.buf.drop c.pos).drop 1 := by
            rw [List.drop_drop]
          rw [h1, hdrop]
          simp
        have hassoc : acc ++ (n % 128 + 128) :: minVarintAux fe (n / 128) =
            (acc ++ [n % 128 + 128]) ++ minVarintAux fe (n / 128) := by
          simp
        rw [hassoc] at hval ⊢
        have hrec := ih (n / 128) rest (acc ++ [n % 128 + 128]) fuel
          ⟨c.buf, c.pos + 1⟩ hf hdiv (by omega) hdrop2 hval
        rw [hrec]
        have heq : c.pos + 1 + (minVarintAux fe (n / 128)).length =
            c.pos + ((minVarintAux fe (n / 128)).length + 1) := by omega
        rw [heq]

theorem lebValue_minVarint (n : Nat) (hn : n < 2 ^ 64) :
    lebValue (minVarint n) = n :=
  lebValue_minVarintAux 10 n (by omega)
    (lt_of_lt_of_le hn (by norm_num))

theorem read_u64_minVarint (n : Nat) (rest : List Nat) (c : ByteCursor)
    (hn : n < 2 ^ 64) (hdrop : c.buf.drop c.pos = minVarint n ++ rest) :
    read_u64 c = .ok (n, ⟨c.buf, c.pos + (minVarint n).length⟩) := by
  have hn10 : n < 128 ^ 10 := lt_of_lt_of_le hn (by norm_num)
  have hlen : (minVarintAux 10 n).length ≤ 10 := minVarintAux_length 10 n
  have hval : lebValue ([] ++ minVarintAux 10 n) < 2 ^ 64 := by
    have h2 := lebValue_minVarint n hn
    simp only [minVarint] at h2
    simp only [List.nil_append]
    rw [h2]
    exact hn
  have := readU64Aux_minVarintAux 10 n rest [] 10 c (by omega) hn10 hlen
    (by simpa [minVarint] using hdrop) hval
  have hleb := lebValue_minVarint n hn
  simp only [minVarint] at hleb
  simpa [read_u64, minVarint, hleb] using this

/-! ### Multihash lemmas -/

theorem Multihash.read_minVarints (code size : Nat) (digest rest : List Nat)
    (c : ByteCursor) (hcode : code < 2 ^ 64) (hsize : size ≤ allocSize)
    (hdig : digest.length = size)
    (hdrop : c.buf.drop c.pos =
      minVarint code ++ (minVarint size ++ (digest ++ rest))) :
    Multihash.read c =
      .ok (⟨code, size, digest ++ List.replicate (allocSize - size) 0⟩,
        ⟨c.buf, c.pos + ((minVarint code).length + (minVarint size).length + size)⟩) := by
  have h1 := read_u64_minVarint code (minVarint size ++ (digest ++ rest)) c hcode hdrop
  have hdrop1 : c.buf.drop (c.pos + (minVarint code).length) =
      minVarint size ++ (digest ++ rest) := by
    have hd : c.buf.drop (c.pos + (minVarint code).length) =
        ((c.buf.drop c.pos).drop (minVarint code).length) := by
      rw [List.drop_drop]
      try congr 1
      try omega
    rw [hd, hdrop, List.drop_left]
  have hsz64 : size < 2 ^ 64 := by
    have ha : allocSize = 64 := rfl
    omega
  have h2 := read_u64_minVarint size (digest ++ rest)
    ⟨c.buf, c.pos + (minVarint code).length⟩ hsz64 hdrop1
  have hdrop2 : c.buf.drop (c.pos + (minVarint code).length + (minVarint size).length) =
      digest ++ rest := by
    have hd : c.buf.drop (c.pos + (minVarint code).length + (minVarint size).length) =
        ((c.buf.drop (c.pos + (minVarint code).length)).drop (minVarint size).length) := by
      rw [List.drop_drop]
      try congr 1
      try omega
    rw [hd, hdrop1, List.drop_left]
  have hguard : ¬(size > allocSize ∨ size > 255) := by
    simp only [allocSize] at hsize ⊢
    omega
  have hexact : ByteCursor.readExact
      ⟨c.buf, c.pos + (minVarint code).length + (minVarint size).length⟩ size =
      some (digest, ⟨c.buf, c.pos + (minVarint code).length + (minVarint size).length + size⟩) := by
    unfold ByteCursor.readExact
    simp only [hdrop2]
    rw [if_pos (by simp [List.length_append]; omega)]
    congr 1
    rw [← hdig, List.take_left]
  unfold Multihash.read
  rw [h1]
  simp only [h2]
  rw [if_neg hguard]
  simp only [hexact]
  simp only [Except.ok.injEq, Prod.mk.injEq, ByteCursor.mk.injEq,
    Multihash.mk.injEq, true_and]
  omega

theorem Multihash.from_bytes_exact (code size : Nat) (digest : List Nat)
    (hcode : code < 2 ^ 64) (hsize : size ≤ allocSize)
    (hdig : digest.length = size) :
    Multihash.from_bytes (minVarint code ++ (minVarint size ++ digest)) =
      .ok ⟨code, size, digest ++ List.replicate (allocSize - size) 0⟩ := by
  have h := Multihash.read_minVarints code size digest []
    ⟨minVarint code ++ (minVarint size ++ digest), 0⟩ hcode hsize hdig
    (by simp)
  unfold Multihash.from_bytes
  rw [h]
  simp only []
  rw [if_neg (by simp [List.length_append]; omega)]

theorem Multihash.from_bytes_trailing (code size : Nat) (digest extra : List Nat)
    (hcode : code < 2 ^ 64) (hsize : size ≤ allocSize)
    (hdig : digest.length = size) (hx : extra ≠ []) :
    Multihash.from_bytes (minVarint code ++ (minVarint size ++ (digest ++ extra))) =
      .error (.invalidSize (minVarint code ++ (minVarint size ++ (digest ++ extra))).length) := by
  have h := Multihash.read_minVarints code size digest extra
    ⟨minVarint code ++ (minVarint size ++ (digest ++ extra)), 0⟩ hcode hsize hdig
    (by simp)
  unfold Multihash.from_bytes
  rw [h]
  have hlen : 0 < extra.length := List.length_pos.mpr hx
  simp only []
  rw [if_pos (by simp [List.length_append]; omega)]

theorem Multihash.wrap_ok_inv (code : Nat) (input : List Nat) (m : Multihash)
    (h : Multihash.wrap code input = .ok m) :
    m = ⟨code, input.length, input ++ List.replicate (allocSize - input.length) 0⟩ ∧
      input.length ≤ allocSize := by
  unfold Multihash.wrap at h
  split at h
  · exact absurd h (by simp)
  · rename_i hle
    refine ⟨?_, by omega⟩
    injection h with h
    exact h.symm

theorem Multihash.wrap_tailOk (code : Nat) (input : List Nat) (m : Multihash)
    (h : Multihash.wrap code input = .ok m) : m.tailOk := by
  obtain ⟨hm, hle⟩ := Multihash.wrap_ok_inv code input m h
  subst hm
  refine ⟨hle, by simp [List.length_append]; omega, ?_⟩
  simp only []
  rw [List.drop_left]

theorem Multihash.read_tailOk (c r : ByteCursor) (m : Multihash)
    (h : Multihash.read c = .ok (m, r)) : m.tailOk := by
  unfold Multihash.read at h
  split at h
  · exact absurd h (by simp)
  · rename_i code c1 _
    split at h
    · exact absurd h (by simp)
    · rename_i size c2 _
      split at h
      · exact absurd h (by simp)
      · rename_i hguard
        cases hre : c2.readExact size with
        | none => rw [hre] at h; exact absurd h (by simp)
        | some dc =>
          obtain ⟨d, c3⟩ := dc
          rw [hre] at h
          simp only [Except.ok.injEq, Prod.mk.injEq] at h
          obtain ⟨hm, -⟩ := h
          unfold ByteCursor.readExact at hre
          split at hre
          · rename_i hlen
            simp only [Option.some.injEq, Prod.mk.injEq] at hre
            obtain ⟨hd, -⟩ := hre
            have hdlen : d.length = size := by
              rw [← hd, List.length_take]
              omega
            subst hm
            have hs : size ≤ allocSize := by
              simp only [allocSize] at hguard ⊢
              omega
            refine ⟨hs, ?_, ?_⟩
            · show (d ++ List.replicate (allocSize - size) 0).length = allocSize
              simp only [List.length_append, List.length_replicate]
              omega
            · show (d ++ List.replicate (allocSize - size) 0).drop size =
                List.replicate (allocSize - size) 0
              rw [← hdlen, List.drop_left]
          · exact absurd hre (by simp)

theorem Multihash.from_bytes_tailOk (bs : List Nat) (m : Multihash)
    (h : Multihash.from_bytes bs = .ok m) : m.tailOk := by
  unfold Multihash.from_bytes at h
  split at h
  · exact absurd h (by simp)
  · rename_i m' r hread
    split at h
    · exact absurd h (by simp)
    · injection h with h
      subst h
      exact Multihash.read_tailOk _ _ _ hread

theorem Multihash.fromCtor_tailOk (m : Multihash) (h : m.fromCtor) : m.tailOk := by
  rcases h with ⟨code, input, h⟩ | ⟨c, r, h⟩ | ⟨bs, h⟩
  · exact Multihash.wrap_tailOk code input m h
  · exact Multihash.read_tailOk c r m h
  · exact Multihash.from_bytes_tailOk bs m h

theorem Multihash.tailOk_eq_iff (m₁ m₂ : Multihash)
    (h₁ : m₁.tailOk) (h₂ : m₂.tailOk) :
    m₁ = m₂ ↔ m₁.code = m₂.code ∧ m₁.digestPart = m₂.digestPart := by
  constructor
  · intro h
    rw [h]
    exact ⟨rfl, rfl⟩
  · rintro ⟨hc, hd⟩
    obtain ⟨hs₁, hl₁, ht₁⟩ := h₁
    obtain ⟨hs₂, hl₂, ht₂⟩ := h₂
    have hsz : m₁.size = m₂.size := by
      have e1 : m₁.digestPart.length = m₁.size := by
        simp [Multihash.digestPart, List.length_take]
        omega
      have e2 : m₂.digestPart.length = m₂.size := by
        simp [Multihash.digestPart, List.length_take]
        omega
      rw [← e1, ← e2, hd]
    have hdig : m₁.digest = m₂.digest := by
      have s1 : m₁.digest = m₁.digestPart ++ m₁.digest.drop m₁.size := by
        simp [Multihash.digestPart]
      have s2 : m₂.digest = m₂.digestPart ++ m₂.digest.drop m₂.size := by
        simp [Multihash.digestPart]
      rw [s1, s2, hd, ht₁, ht₂, hsz]
    obtain ⟨c₁, z₁, d₁⟩ := m₁
    obtain ⟨c₂, z₂, d₂⟩ := m₂
    simp only at hc hsz hdig
    simp [hc, hsz, hdig]



/-! ### Base64 round-trip -/

theorem b64CharDec_b64Char_fin :
    ∀ n : Fin 64, b64CharDec (b64Char n.val) = some n.val := by decide

theorem b64CharDec_b64Char (n : Nat) (h : n < 64) :
    b64CharDec (b64Char n) = some n := b64CharDec_b64Char_fin ⟨n, h⟩

theorem b64Char_ne_pad_fin : ∀ n : Fin 64, b64Char n.val ≠ '=' := by decide

theorem b64Char_ne_pad (n : Nat) (h : n < 64) : b64Char n ≠ '=' :=
  b64Char_ne_pad_fin ⟨n, h⟩

theorem base64_roundtrip (bs : List Nat) (h : ∀ b ∈ bs, b < 256) :
    base64Decode (base64Encode bs) = .ok bs := by
  induction bs using base64Encode.induct with
  | case1 a b c rest ih =>
    have ha : a < 256 := h a (by simp)
    have hb : b < 256 := h b (by simp)
    have hc : c < 256 := h c (by simp)
    have ih' := ih (fun x hx => h x (by simp [hx]))
    have d1 := b64CharDec_b64Char (a / 4) (by omega)
    have d2 := b64CharDec_b64Char (a % 4 * 16 + b / 16) (by omega)
    have d3 := b64CharDec_b64Char (b % 16 * 4 + c / 64) (by omega)
    have d4 := b64CharDec_b64Char (c % 64) (by omega)
    have hne3 := b64Char_ne_pad (b % 16 * 4 + c / 64) (by omega)
    have hne4 := b64Char_ne_pad (c % 64) (by omega)
    unfold base64Encode base64Decode
    simp only [d1, d2]
    rw [if_neg hne3]
    simp only [d3]
    rw [if_neg hne4]
    simp only [d4, ih']
    have e1 : a / 4 * 4 + (a % 4 * 16 + b / 16) / 16 = a := by omega
    have e2 : (a % 4 * 16 + b / 16) % 16 * 16 + (b % 16 * 4 + c / 64) / 4 = b := by
      omega
    have e3 : (b % 16 * 4 + c / 64) % 4 * 64 + c % 64 = c := by omega
    rw [e1, e2, e3]
  | case2 a b =>
    have ha : a < 256 := h a (by simp)
    have hb : b < 256 := h b (by simp)
    have d1 := b64CharDec_b64Char (a / 4) (by omega)
    have d2 := b64CharDec_b64Char (a % 4 * 16 + b / 16) (by omega)
    have d3 := b64CharDec_b64Char (b % 16 * 4) (by omega)
    have hne3 := b64Char_ne_pad (b % 16 * 4) (by omega)
    have e0 : b % 16 * 4 % 4 = 0 := by omega
    have e1 : a / 4 * 4 + (a % 4 * 16 + b / 16) / 16 = a := by omega
    have e2 : (a % 4 * 16 + b / 16) % 16 * 16 + b % 16 * 4 / 4 = b := by omega
    unfold base64Encode base64Decode
    simp only [d1, d2]
    rw [if_neg hne3]
    simp only [d3]
    simp [e0, e1, e2]
    omega
  | case3 a =>
    have ha : a < 256 := h a (by simp)
    have d1 := b64CharDec_b64Char (a / 4) (by omega)
    have d2 := b64CharDec_b64Char (a % 4 * 16) (by omega)
    have e0 : a % 4 * 16 % 16 = 0 := by omega
    have e1 : a / 4 * 4 + a % 4 * 16 / 16 = a := by omega
    unfold base64Encode base64Decode
    simp only [d1, d2]
    simp [e0, e1]
    omega
  | case4 => rfl


/-! ### CID binary round-trip -/

theorem minVarint_small (n : Nat) (h : n < 128) : minVarint n = [n] := by
  simp [minVarint, minVarintAux, h]

theorem Multihash.tailOk_reconstruct (m : Multihash) (h : m.tailOk) :
    m.digestPart ++ List.replicate (allocSize - m.size) 0 = m.digest := by
  obtain ⟨hs, hl, ht⟩ := h
  rw [Multihash.digestPart, ← ht, List.take_append_drop]

theorem Multihash.digestPart_length (m : Multihash) (h : m.tailOk) :
    m.digestPart.length = m.size := by
  obtain ⟨hs, hl, ht⟩ := h
  simp [Multihash.digestPart, List.length_take]
  omega

theorem Multihash.wfB_tailOk (m : Multihash) (h : m.wfB = true) : m.tailOk := by
  unfold Multihash.wfB at h
  simp only [Bool.and_eq_true, decide_eq_true_eq, List.all_eq_true] at h
  obtain ⟨⟨⟨⟨hs, hc⟩, hl⟩, hz⟩, hb⟩ := h
  refine ⟨hs, hl, ?_⟩
  rw [List.eq_replicate_iff]
  refine ⟨by simp [List.length_drop, hl], ?_⟩
  intro b hb2
  exact hz b hb2

theorem Multihash.wfB_code_lt (m : Multihash) (h : m.wfB = true) :
    m.code < 2 ^ 64 := by
  unfold Multihash.wfB at h
  simp only [Bool.and_eq_true, decide_eq_true_eq, List.all_eq_true] at h
  exact h.1.1.1.2

theorem Multihash.wfB_digest_lt (m : Multihash) (h : m.wfB = true) :
    ∀ b ∈ m.digest, b < 256 := by
  unfold Multihash.wfB at h
  simp only [Bool.and_eq_true, decide_eq_true_eq, List.all_eq_true] at h
  intro b hb
  exact h.2 b hb

theorem Multihash.read_to_bytes (m : Multihash) (rest : List Nat)
    (c : ByteCursor) (hwf : m.tailOk) (hcode : m.code < 2 ^ 64)
    (hdrop : c.buf.drop c.pos = m.to_bytes ++ rest) :
    Multihash.read c = .ok (m, ⟨c.buf, c.pos + m.to_bytes.length⟩) := by
  have hdp := Multihash.digestPart_length m hwf
  have hdrop2 : c.buf.drop c.pos =
      minVarint m.code ++ (minVarint m.size ++ (m.digestPart ++ rest)) := by
    rw [hdrop]
    simp [Multihash.to_bytes, List.append_assoc]
  have h := Multihash.read_minVarints m.code m.size m.digestPart rest c hcode
    hwf.1 hdp hdrop2
  have hm : (⟨m.code, m.size,
      m.digestPart ++ List.replicate (allocSize - m.size) 0⟩ : Multihash) = m := by
    obtain ⟨c1, s1, d1⟩ := m
    simp only [Multihash.mk.injEq]
    exact ⟨trivial, trivial, Multihash.tailOk_reconstruct ⟨c1, s1, d1⟩ hwf⟩
  have hlen : (minVarint m.code).length + (minVarint m.size).length + m.size =
      m.to_bytes.length := by
    simp only [Multihash.to_bytes, List.length_append, hdp]
    try omega
  rw [h, hm, hlen]

theorem Cid.fromBytes_toBytes (c : Cid) (h : c.wfB = true) :
    Cid.fromBytes c.toBytes = .ok c := by
  obtain ⟨ver, codec, hash⟩ := c
  cases ver with
  | v0 =>
    unfold Cid.wfB at h
    simp only [Bool.and_eq_true, decide_eq_true_eq] at h
    obtain ⟨⟨⟨hcodec, hcode⟩, hsize⟩, hwfb⟩ := h
    have hwf := Multihash.wfB_tailOk hash hwfb
    have hdp := Multihash.digestPart_length hash hwf
    have hbytes : Cid.toBytes ⟨.v0, codec, hash⟩ =
        18 :: 32 :: hash.digestPart := by
      simp [Cid.toBytes, Multihash.to_bytes, hcode, hsize,
        minVarint_small 18 (by omega), minVarint_small 32 (by omega)]
    have hg : (18 :: 32 :: hash.digestPart).length = 34 ∧
        (18 :: 32 :: hash.digestPart).getD 0 0 = 0x12 ∧
        (18 :: 32 :: hash.digestPart).getD 1 0 = 0x20 := by
      refine ⟨?_, rfl, rfl⟩
      simp [List.length_cons, hdp, hsize]
    have hfb : Multihash.from_bytes (18 :: 32 :: hash.digestPart) = .ok hash := by
      have he := Multihash.from_bytes_exact 18 32 hash.digestPart (by omega)
        (by simp [allocSize]) (by rw [hdp, hsize])
      have hb2 : minVarint 18 ++ (minVarint 32 ++ hash.digestPart) =
          18 :: 32 :: hash.digestPart := by
        simp [minVarint_small 18 (by omega), minVarint_small 32 (by omega)]
      rw [hb2] at he
      rw [he]
      have hm : (⟨18, 32, hash.digestPart ++
          List.replicate (allocSize - 32) 0⟩ : Multihash) = hash := by
        obtain ⟨c1, s1, d1⟩ := hash
        simp only at hcode hsize
        subst hcode hsize
        simp only [Multihash.mk.injEq]
        exact ⟨trivial, trivial, Multihash.tailOk_reconstruct ⟨18, 32, d1⟩ hwf⟩
      rw [hm]
    unfold Cid.fromBytes
    rw [hbytes, if_pos hg]
    simp only [hfb]
    rw [hcodec]
  | v1 =>
    unfold Cid.wfB at h
    simp only [Bool.and_eq_true, decide_eq_true_eq] at h
    obtain ⟨hcodec, hwfb⟩ := h
    have hwf := Multihash.wfB_tailOk hash hwfb
    have hcode := Multihash.wfB_code_lt hash hwfb
    have hbytes : Cid.toBytes ⟨.v1, codec, hash⟩ =
        1 :: (minVarint codec ++ hash.to_bytes) := by
      simp [Cid.toBytes, minVarint_small 1 (by omega)]
    have hr1 : read_u64 ⟨1 :: (minVarint codec ++ hash.to_bytes), 0⟩ =
        .ok (1, ⟨1 :: (minVarint codec ++ hash.to_bytes), 1⟩) := by
      have := read_u64_minVarint 1 (minVarint codec ++ hash.to_bytes)
        ⟨1 :: (minVarint codec ++ hash.to_bytes), 0⟩ (by omega)
        (by simp [minVarint_small 1 (by omega)])
      simpa [minVarint_small 1 (by omega)] using this
    have hr2 : read_u64 ⟨1 :: (minVarint codec ++ hash.to_bytes), 1⟩ =
        .ok (codec, ⟨1 :: (minVarint codec ++ hash.to_bytes),
          1 + (minVarint codec).length⟩) :=
      read_u64_minVarint codec hash.to_bytes _ hcodec (by simp)
    have hr3 : Multihash.read ⟨1 :: (minVarint codec ++ hash.to_bytes),
        1 + (minVarint codec).length⟩ =
        .ok (hash, ⟨1 :: (minVarint codec ++ hash.to_bytes),
          1 + (minVarint codec).length + hash.to_bytes.length⟩) := by
      apply Multihash.read_to_bytes hash [] _ hwf hcode
      show (1 :: (minVarint codec ++ hash.to_bytes)).drop
          (1 + (minVarint codec).length) = hash.to_bytes ++ []
      rw [Nat.add_comm 1 (minVarint codec).length]
      rw [List.drop_succ_cons, List.drop_left, List.append_nil]
    unfold Cid.fromBytes
    rw [hbytes]
    rw [if_neg ?_]
    swap
    · rintro ⟨-, h0, -⟩
      simp [List.getD] at h0
    rw [hr1]
    simp only [if_neg (by omega : ¬(1 : Nat) ≠ 1)]
    simp only [hr2, hr3]
    rw [if_neg (by simp [List.length_cons, List.length_append]; omega)]

theorem Cid.wfB_hash (c : Cid) (h : c.wfB = true) : c.hash.wfB = true := by
  obtain ⟨ver, codec, hash⟩ := c
  cases ver with
  | v0 =>
    unfold Cid.wfB at h
    simp only [Bool.and_eq_true] at h
    exact h.2
  | v1 =>
    unfold Cid.wfB at h
    simp only [Bool.and_eq_true] at h
    exact h.2

theorem Cid.toBytes_mem_lt (c : Cid) (h : c.wfB = true) :
    ∀ b ∈ c.toBytes, b < 256 := by
  obtain ⟨ver, codec, hash⟩ := c
  have hwfb := Cid.wfB_hash ⟨ver, codec, hash⟩ h
  have hmh : ∀ b ∈ hash.to_bytes, b < 256 := by
    intro b hb
    unfold Multihash.to_bytes at hb
    rcases List.mem_append.mp hb with h1 | h1
    · rcases List.mem_append.mp h1 with h2 | h2
      · exact minVarint_mem_lt _ b h2
      · exact minVarint_mem_lt _ b h2
    · exact Multihash.wfB_digest_lt hash hwfb b (List.mem_of_mem_take h1)
  cases ver with
  | v0 =>
    intro b hb
    exact hmh b hb
  | v1 =>
    intro b hb
    unfold Cid.toBytes at hb
    simp only at hb
    rcases List.mem_append.mp hb with h1 | h1
    · rcases List.mem_append.mp h1 with h2 | h2
      · exact minVarint_mem_lt _ b h2
      · exact minVarint_mem_lt _ b h2
    · exact hmh b h1


/-! ### Collecting sorted entries back into a map -/

theorem assocSortedB_tail (k : String) (v : Ipld) (t : IpldAssoc)
    (h : assocSortedB (.cons k v t) = true) : assocSortedB t = true := by
  cases t with
  | nil => rfl
  | cons k2 v2 t2 =>
    unfold assocSortedB at h
    simp only [Bool.and_eq_true] at h
    exact h.2

theorem assocEntriesConcatSingle : (a : IpldAssoc) → ∀ (k : String) (v : Ipld),
    (assocConcat a (.cons k v .nil)).entries = a.entries ++ [(k, v)]
  | .nil => by
    intro k v
    rfl
  | .cons k3 v3 t3 => by
    intro k v
    have ih := assocEntriesConcatSingle t3 k v
    simp only [assocConcat]
    simp [IpldAssoc.entries, ih]

theorem assocConcat_nil_right : (a : IpldAssoc) → assocConcat a .nil = a
  | .nil => rfl
  | .cons k v t => by
    have ih := assocConcat_nil_right t
    simp only [assocConcat]
    rw [ih]

theorem assocSortedB_head_lt : (t : IpldAssoc) → ∀ (k : String) (v : Ipld),
    assocSortedB (.cons k v t) = true → ∀ p ∈ t.entries, k < p.1
  | .nil => by
    intro k v _ p hp
    simp [IpldAssoc.entries] at hp
  | .cons k2 v2 t2 => by
    intro k v h p hp
    have ih := assocSortedB_head_lt t2
    unfold assocSortedB at h
    simp only [Bool.and_eq_true, decide_eq_true_eq] at h
    obtain ⟨hk, h2⟩ := h
    rcases List.mem_cons.mp hp with h1 | h1
    · rw [h1]
      exact hk
    · exact lt_trans hk (ih k2 v2 h2 p h1)

theorem assocInsert_gt : (m : IpldAssoc) → ∀ (k : String) (v : Ipld),
    (∀ p ∈ m.entries, p.1 < k) →
    assocInsert m k v = assocConcat m (.cons k v .nil)
  | .nil => by
    intro k v _
    rfl
  | .cons k2 v2 t => by
    intro k v hk
    have ih := assocInsert_gt t k v
    have hk2 : k2 < k := hk (k2, v2) (by simp [IpldAssoc.entries])
    simp only [assocInsert, assocConcat]
    rw [if_neg (by exact not_lt_of_gt hk2), if_neg (by exact (ne_of_lt hk2).symm)]
    rw [ih (fun p hp => hk p (by simp [IpldAssoc.entries, hp]))]

theorem assocConcat_snoc : (a : IpldAssoc) → ∀ (k : String) (v : Ipld)
    (b : IpldAssoc),
    assocConcat (assocConcat a (.cons k v .nil)) b = assocConcat a (.cons k v b)
  | .nil => by
    intro k v b
    rfl
  | .cons k2 v2 t => by
    intro k v b
    have ih := assocConcat_snoc t k v b
    simp only [assocConcat]
    rw [ih]

theorem foldl_insert_sorted : (m : IpldAssoc) → ∀ acc : IpldAssoc,
    assocSortedB m = true →
    (∀ p ∈ m.entries, ∀ q ∈ acc.entries, q.1 < p.1) →
    m.entries.foldl (fun a kv => assocInsert a kv.1 kv.2) acc =
      assocConcat acc m
  | .nil => by
    intro acc _ _
    simp [IpldAssoc.entries]
    rw [assocConcat_nil_right]
  | .cons k v t => by
    intro acc hs hlt
    have ih := foldl_insert_sorted t
    have hhead : ∀ q ∈ acc.entries, q.1 < k :=
      hlt (k, v) (by simp [IpldAssoc.entries])
    have hins := assocInsert_gt acc k v hhead
    simp only [IpldAssoc.entries, List.foldl_cons]
    rw [hins]
    rw [ih (assocConcat acc (.cons k v .nil)) (assocSortedB_tail k v t hs) ?_]
    · exact assocConcat_snoc acc k v t
    · intro p hp q hq
      rw [assocEntriesConcatSingle acc k v] at hq
      rcases List.mem_append.mp hq with h1 | h1
      · exact hlt p (by simp [IpldAssoc.entries, hp]) q h1
      · have hqkv : q = (k, v) := by simpa using h1
        rw [hqkv]
        exact assocSortedB_head_lt t k v hs p hp




theorem fromEntries_entries_of_sorted (m : IpldAssoc)
    (hs : assocSortedB m = true) : fromEntries m.entries = m := by
  unfold fromEntries
  rw [foldl_insert_sorted m .nil hs (by simp [IpldAssoc.entries])]
  rfl

theorem decodeObjEntries_map (m : IpldAssoc) (hs : assocSortedB m = true)
    (hc : escapeClash m = false) :
    decodeObjEntries m.entries = .ok (.stringMap m) := by
  have hfe := fromEntries_entries_of_sorted m hs
  cases m with
  | nil => rfl
  | cons k v t =>
    cases t with
    | cons k2 v2 t2 =>
      have hfe' : fromEntries ((k, v) :: (k2, v2) :: t2.entries) =
          .cons k v (.cons k2 v2 t2) := by
        simpa [IpldAssoc.entries] using hfe
      simp only [IpldAssoc.entries, decodeObjEntries, hfe']
    | nil =>
      have hfe' : fromEntries [(k, v)] = .cons k v .nil := by
        simpa [IpldAssoc.entries] using hfe
      cases v with
      | str sv =>
        have hk : (k == "/") = false := by
          unfold escapeClash at hc
          exact hc
        have hk2 : ¬ k = "/" := by simpa using hk
        simp only [IpldAssoc.entries, decodeObjEntries, if_neg hk2, hfe']
      | stringMap m2 =>
        cases m2 with
        | nil => simp only [IpldAssoc.entries, decodeObjEntries, hfe']
        | cons k3 v3 t3 =>
          cases v3 with
          | str s3 =>
            have hk : (k == "/" && k3 == "bytes") = false := by
              unfold escapeClash at hc
              exact hc
            have hk2 : ¬(k = "/" ∧ k3 = "bytes") := by
              simp only [Bool.and_eq_false_iff, beq_eq_false_iff_ne, ne_eq] at hk
              rintro ⟨h1, h2⟩
              rcases hk with h3 | h3 <;> contradiction
            simp only [IpldAssoc.entries, decodeObjEntries, if_neg hk2, hfe']
          | null => simp only [IpldAssoc.entries, decodeObjEntries, hfe']
          | bool b => simp only [IpldAssoc.entries, decodeObjEntries, hfe']
          | integer i => simp only [IpldAssoc.entries, decodeObjEntries, hfe']
          | float f => simp only [IpldAssoc.entries, decodeObjEntries, hfe']
          | bytes bs => simp only [IpldAssoc.entries, decodeObjEntries, hfe']
          | list xs => simp only [IpldAssoc.entries, decodeObjEntries, hfe']
          | stringMap mm => simp only [IpldAssoc.entries, decodeObjEntries, hfe']
          | link c => simp only [IpldAssoc.entries, decodeObjEntries, hfe']
      | null => simp only [IpldAssoc.entries, decodeObjEntries, hfe']
      | bool b => simp only [IpldAssoc.entries, decodeObjEntries, hfe']
      | integer i => simp only [IpldAssoc.entries, decodeObjEntries, hfe']
      | float f => simp only [IpldAssoc.entries, decodeObjEntries, hfe']
      | bytes bs => simp only [IpldAssoc.entries, decodeObjEntries, hfe']
      | list xs => simp only [IpldAssoc.entries, decodeObjEntries, hfe']
      | link c => simp only [IpldAssoc.entries, decodeObjEntries, hfe']


/-! ### The DAG-JSON round trip on good values -/

mutual
theorem rt_json : (v : Ipld) → goodIpld v = true →
    decodeJson (encodeJson v) = .ok v
  | .null => by
    intro _
    rfl
  | .bool b => by
    intro _
    rfl
  | .integer i => by
    intro hg
    simp only [goodIpld, Bool.and_eq_true, decide_eq_true_eq] at hg
    simp only [encodeJson, decodeJson]
    rcases le_or_lt 0 i with hi | hi
    · rw [if_pos ⟨hi, by omega⟩]
    · rw [if_neg (by omega), if_pos ⟨by omega, hi⟩]
  | .float bits => by
    intro hg
    simp only [goodIpld, Bool.and_eq_true, decide_eq_true_eq] at hg
    simp only [encodeJson, if_pos hg.2]
    rfl
  | .str s => by
    intro _
    rfl
  | .bytes bs => by
    intro hg
    simp only [goodIpld, List.all_eq_true, decide_eq_true_eq] at hg
    have hb64 := base64_roundtrip bs hg
    simp only [encodeJson, decodeJson, decodeJsonEntries, decodeObjEntries]
    simp only [String.toList]
    have hsing : fromEntries [("bytes", Ipld.str ⟨base64Encode bs⟩)] =
        .cons "bytes" (.str ⟨base64Encode bs⟩) .nil := rfl
    simp [hsing, hb64]
  | .list xs => by
    intro hg
    simp only [goodIpld] at hg
    have ih := rt_jsonSeq xs hg
    simp only [encodeJson, decodeJson, ih]
  | .stringMap m => by
    intro hg
    simp only [goodIpld, Bool.and_eq_true] at hg
    obtain ⟨⟨hs, hcl⟩, hgood⟩ := hg
    have hcl2 : escapeClash m = false := by
      simpa using hcl
    have ih := rt_jsonAssoc m hgood
    simp only [encodeJson, decodeJson, ih]
    exact decodeObjEntries_map m hs hcl2
  | .link c => by
    intro hg
    simp only [goodIpld] at hg
    have hb64 := base64_roundtrip c.toBytes (Cid.toBytes_mem_lt c hg)
    have hcid := Cid.fromBytes_toBytes c hg
    simp only [encodeJson, decodeJson, decodeJsonEntries, decodeObjEntries]
    simp only [String.toList]
    simp [hb64, hcid]
theorem rt_jsonSeq : (xs : IpldSeq) → goodSeq xs = true →
    decodeJsonSeq (encodeJsonSeq xs) = .ok xs
  | .nil => by
    intro _
    rfl
  | .cons hd tl => by
    intro hg
    simp only [goodSeq, Bool.and_eq_true] at hg
    have ih1 := rt_json hd hg.1
    have ih2 := rt_jsonSeq tl hg.2
    simp only [encodeJsonSeq, decodeJsonSeq, ih1, ih2]
theorem rt_jsonAssoc : (m : IpldAssoc) → goodAssoc m = true →
    decodeJsonEntries (encodeJsonAssoc m) = .ok m.entries
  | .nil => by
    intro _
    rfl
  | .cons k v t => by
    intro hg
    simp only [goodAssoc, Bool.and_eq_true] at hg
    have ih1 := rt_json v hg.1
    have ih2 := rt_jsonAssoc t hg.2
    simp only [encodeJsonAssoc, decodeJsonEntries, ih1, ih2, IpldAssoc.entries]
end



/-! ### Structural equality is reflexive away from NaN -/

mutual
theorem ipldEq_refl : (v : Ipld) → noNaN v = true → ipldEq v v = true
  | .null => by
    intro _
    rfl
  | .bool b => by
    intro _
    simp [ipldEq]
  | .integer i => by
    intro _
    simp [ipldEq]
  | .float bits => by
    intro h
    simp only [noNaN, Bool.not_eq_true'] at h
    simp [ipldEq, f64Eq, h]
  | .str s => by
    intro _
    simp [ipldEq]
  | .bytes bs => by
    intro _
    simp [ipldEq]
  | .list xs => by
    intro h
    simp only [noNaN] at h
    simp only [ipldEq]
    exact seqEq_refl xs h
  | .stringMap m => by
    intro h
    simp only [noNaN] at h
    simp only [ipldEq]
    exact assocEqB_refl m h
  | .link c => by
    intro _
    simp [ipldEq]
theorem seqEq_refl : (xs : IpldSeq) → noNaNSeq xs = true → seqEq xs xs = true
  | .nil => by
    intro _
    rfl
  | .cons hd tl => by
    intro hg
    simp only [noNaNSeq, Bool.and_eq_true] at hg
    simp only [seqEq, Bool.and_eq_true]
    exact ⟨ipldEq_refl hd hg.1, seqEq_refl tl hg.2⟩
theorem assocEqB_refl : (m : IpldAssoc) → noNaNAssoc m = true → assocEqB m m = true
  | .nil => by
    intro _
    rfl
  | .cons k v t => by
    intro hg
    simp only [noNaNAssoc, Bool.and_eq_true] at hg
    simp only [assocEqB, Bool.and_eq_true]
    exact ⟨⟨by simp, ipldEq_refl v hg.1⟩, assocEqB_refl t hg.2⟩
end

/-! ### The iterator stack machine drains in pre-order -/

theorem preorderList_toList : (s : IpldSeq) →
    preorderList s.toList = preorderSeq s
  | .nil => rfl
  | .cons hd tl => by
    have ih := preorderList_toList tl
    simp only [IpldSeq.toList, preorderList, preorderSeq, ih]

theorem preorderList_values : (a : IpldAssoc) →
    preorderList a.valuesList = preorderAssoc a
  | .nil => rfl
  | .cons k v t => by
    have ih := preorderList_values t
    simp only [IpldAssoc.valuesList, preorderList, preorderAssoc, ih]

theorem preorder_children (x : Ipld) :
    preorder x = x :: preorderList (childrenList x) := by
  cases x with
  | list xs => simp only [preorder, childrenList, preorderList_toList]
  | stringMap m => simp only [preorder, childrenList, preorderList_values]
  | null => rfl
  | bool b => rfl
  | integer i => rfl
  | float f => rfl
  | str s => rfl
  | bytes bs => rfl
  | link c => rfl

theorem drain_preorderStack : ∀ stack : List (List Ipld),
    drain stack = preorderStack stack := by
  intro stack
  induction stack using drain.induct with
  | case1 => simp only [drain, preorderStack]
  | case2 rest ih =>
    simp only [drain, preorderStack, preorderList, List.nil_append, ih]
  | case3 x xs rest ih =>
    simp only [drain, preorderStack, preorderList, ih]
    rw [preorder_children x]
    simp [List.append_assoc]

theorem foldl_links_mem (l : List Ipld) :
    ∀ (acc : List Cid) (c : Cid),
    c ∈ l.foldl
      (fun acc x =>
        match x with
        | .link c2 => acc ++ [c2]
        | _ => acc) acc ↔ c ∈ acc ∨ Ipld.link c ∈ l := by
  induction l with
  | nil => simp
  | cons x xs ih =>
    intro acc c
    cases x <;>
      (simp only [List.foldl_cons, ih, List.mem_cons, List.mem_append,
        List.mem_singleton]
       simp [Ipld.link.injEq]
       try tauto)



/-! ## The claims -/

/-- C1 (counterexample): the claim quantifies over every IPLD value with
no NaN float and integers in `[-2^53, 2^53]`; `Float(+∞)` satisfies that
precondition, yet DAG-JSON encodes it as `null`, so decoding returns
`Null`, not the value itself. -/
theorem claim_C1_counterexample :
    noNaN (.float infBits) = true ∧
    decodeJson (encodeJson (.float infBits)) = .ok .null ∧
    decodeJson (encodeJson (.float infBits)) ≠ .ok (.float infBits) := by
  decide

/-- C1 (amended): for every IPLD value satisfying the Rust type
invariants (sorted unique map keys, well-formed CIDs, bytes below 256)
that contains no non-finite float, whose integers lie in
`[-2^53, 2^53]`, and that contains no map matching the link or bytes
escape shape, decoding the DAG-JSON encoding returns exactly the value. -/
theorem claim_C1 (v : Ipld) (h : goodIpld v = true) :
    decodeJson (encodeJson v) = .ok v :=
  rt_json v h

/-- C1 witness: the round trip at a concrete value exercising every
encoder branch. -/
theorem claim_C1_witness :
    goodIpld exIpldBig = true ∧
    decodeJson (encodeJson exIpldBig) = .ok exIpldBig :=
  ⟨by decide, claim_C1 exIpldBig (by decide)⟩

/-- C2 (counterexample): the DAG-JSON encoding of a link is *not* the
object carrying the multibase text form of the CID (base32-lower for
v1); the implementation emits base64 of the binary CID instead. -/
theorem claim_C2_counterexample :
    encodeJson (.link exCidV1) ≠
      .obj (.cons "/" (.str (String.mk (Cid.toText exCidV1))) .nil) := by
  decide

/-- C2 (amended): for every well-formed CID `c`, the DAG-JSON encoding
of `Link(c)` is a JSON object with the single key `"/"` whose value is
the base64 (RFC 4648, padded) of the binary form `c.to_bytes()`, and
DAG-JSON decode of that object returns `Link(c)`. -/
theorem claim_C2 (c : Cid) (h : c.wfB = true) :
    encodeJson (.link c) =
      .obj (.cons "/" (.str (String.mk (base64Encode c.toBytes))) .nil) ∧
    decodeJson (encodeJson (.link c)) = .ok (.link c) :=
  ⟨rfl, rt_json (.link c) (by simpa [goodIpld] using h)⟩

/-- C2 witness: the link escape round trip at a concrete v1 CID. -/
theorem claim_C2_witness :
    Cid.wfB exCidV1 = true ∧
    decodeJson (encodeJson (.link exCidV1)) = .ok (.link exCidV1) :=
  ⟨by decide, (claim_C2 exCidV1 (by decide)).2⟩

/-- C3: for every digest function of width 32 and every value whose
DAG-CBOR encoding succeeds, `dag_cbor::cid` is the CID v1 with codec
`0x71` whose multihash is Blake2b-256 over the DAG-CBOR bytes, and
`dag_json::cid` is the CID v1 with codec `0x0129` whose multihash is
Blake2b-256 over the DAG-JSON bytes: each codec code matches the codec
that produced the hashed bytes. -/
theorem claim_C3 (d : List Nat → List Nat) (render : Json → List Nat)
    (v : Ipld) (bytes : List Nat) (hd : ∀ b, (d b).length = 32)
    (henc : cborEncode v = .ok bytes) :
    dagCborCid d v =
      .ok ⟨.v1, 0x71, ⟨blake2b256Code, 32, d bytes ++ List.replicate 32 0⟩⟩ ∧
    dagJsonCid d render v =
      .ok ⟨.v1, 0x0129,
        ⟨blake2b256Code, 32, d (render (encodeJson v)) ++ List.replicate 32 0⟩⟩ := by
  constructor
  · unfold dagCborCid
    rw [henc]
    simp only [Multihash.wrap, hd, allocSize]
    rw [if_neg (by simp [hd])]
    simp [Cid.new_v1, hd]
  · unfold dagJsonCid
    simp only [Multihash.wrap, hd, allocSize]
    rw [if_neg (by simp [hd])]
    simp [Cid.new_v1, hd]

/-- C3 witness: the two cid functions at `Null` under a constant digest
function. -/
theorem claim_C3_witness :
    dagCborCid (fun _ => List.replicate 32 0) Ipld.null =
      .ok ⟨.v1, 0x71,
        ⟨blake2b256Code, 32, List.replicate 32 0 ++ List.replicate 32 0⟩⟩ ∧
    dagJsonCid (fun _ => List.replicate 32 0) (fun _ => []) Ipld.null =
      .ok ⟨.v1, 0x0129,
        ⟨blake2b256Code, 32, List.replicate 32 0 ++ List.replicate 32 0⟩⟩ :=
  claim_C3 (fun _ => List.replicate 32 0) (fun _ => []) Ipld.null [0xf6]
    (fun _ => by simp) (by decide)

/-- C4: a byte sequence that is exactly a minimal multihash encoding
`varint(code) ‖ varint(size) ‖ digest` parses via `Multihash::from_bytes`
into that multihash, and any trailing bytes beyond the multihash make
`from_bytes` fail with `InvalidSize`. -/
theorem claim_C4 (code size : Nat) (digest : List Nat)
    (hcode : code < 2 ^ 64) (hsize : size ≤ allocSize)
    (hdig : digest.length = size) :
    Multihash.from_bytes (minVarint code ++ (minVarint size ++ digest)) =
      .ok ⟨code, size, digest ++ List.replicate (allocSize - size) 0⟩ ∧
    ∀ extra, extra ≠ [] →
      Multihash.from_bytes
          (minVarint code ++ (minVarint size ++ (digest ++ extra))) =
        .error (.invalidSize
          (minVarint code ++ (minVarint size ++ (digest ++ extra))).length) :=
  ⟨Multihash.from_bytes_exact code size digest hcode hsize hdig,
    fun extra hx =>
      Multihash.from_bytes_trailing code size digest extra hcode hsize hdig hx⟩

/-- C4 witness: an exact two-byte-digest multihash parses; the same
bytes with one trailing byte are rejected with `InvalidSize`. -/
theorem claim_C4_witness :
    Multihash.from_bytes (minVarint 0x12 ++ (minVarint 2 ++ [7, 8])) =
      .ok ⟨0x12, 2, [7, 8] ++ List.replicate 62 0⟩ ∧
    Multihash.from_bytes (minVarint 0x12 ++ (minVarint 2 ++ ([7, 8] ++ [9]))) =
      .error (.invalidSize
        (minVarint 0x12 ++ (minVarint 2 ++ ([7, 8] ++ [9]))).length) := by
  have h := claim_C4 0x12 2 [7, 8] (by omega) (by decide) (by decide)
  exact ⟨h.1, h.2 [9] (by decide)⟩

/-- C5: the claim says both u64 varint readers decode a minimal varint
and advance past it, erroring (not panicking) on truncated input. The
multihash reader does; but `sp_cid::varint_read_u64` decodes the
encoding of zero instead of the input (returning `Ok(0)` for every
buffer of at least ten bytes) and panics by out-of-bounds indexing on
shorter buffers. -/
theorem claim_C5 :
    varint_read_u64 ⟨[5, 0, 0, 0, 0, 0, 0, 0, 0, 0], 0⟩ =
      .ok (0, ⟨[5, 0, 0, 0, 0, 0, 0, 0, 0, 0], 1⟩) ∧
    read_u64 ⟨[5, 0, 0, 0, 0, 0, 0, 0, 0, 0], 0⟩ =
      .ok (5, ⟨[5, 0, 0, 0, 0, 0, 0, 0, 0, 0], 1⟩) ∧
    varint_read_u64 ⟨[0x80], 0⟩ = .panicked := by
  decide

/-- C6: the iterator yields every sub-value in pre-order starting with
the root, descending into `List` elements and `StringMap` values but not
into `Link`; and `references` collects exactly the CIDs of the `Link`
values the iterator yields. -/
theorem claim_C6 (v : Ipld) :
    iterList v = preorder v ∧
    (∀ c : Cid, c ∈ referencesList v ↔ Ipld.link c ∈ iterList v) := by
  constructor
  · show drain [[v]] = preorder v
    rw [drain_preorderStack]
    simp [preorderStack, preorderList]
  · intro c
    unfold referencesList
    rw [foldl_links_mem]
    simp

/-- C7 (counterexample): the derived equality on `Ipld` compares `Float`
with IEEE-754 `f64::eq`, so two `Float` values carrying the identical
NaN bit pattern are *not* equal. -/
theorem claim_C7_counterexample :
    f64IsNaN nanBits = true ∧
    ipldEq (.float nanBits) (.float nanBits) = false := by
  decide

/-- C7 (amended): equality on IPLD values is structural and total over
the nine variants, with `Float` compared by IEEE-754 equality; it is
reflexive on every value containing no NaN float. -/
theorem claim_C7 (v : Ipld) (h : noNaN v = true) : ipldEq v v = true :=
  ipldEq_refl v h

/-- C7 witness: reflexivity at a concrete NaN-free value. -/
theorem claim_C7_witness :
    noNaN exIpldBig = true ∧ ipldEq exIpldBig exIpldBig = true :=
  ⟨by decide, claim_C7 exIpldBig (by decide)⟩

/-- C8: multihashes produced by the public constructors are equal
exactly when their codes and used digest prefixes agree, and the data
fed to `Hash` is the pair `(code, digest[..size])`, never the unused
buffer tail. -/
theorem claim_C8 (m₁ m₂ : Multihash) (h₁ : m₁.fromCtor) (h₂ : m₂.fromCtor) :
    ((m₁ = m₂) ↔ m₁.code = m₂.code ∧ m₁.digestPart = m₂.digestPart) ∧
    (m₁.hashInput = m₂.hashInput ↔
      m₁.code = m₂.code ∧ m₁.digestPart = m₂.digestPart) := by
  have t₁ := Multihash.fromCtor_tailOk m₁ h₁
  have t₂ := Multihash.fromCtor_tailOk m₂ h₂
  refine ⟨Multihash.tailOk_eq_iff m₁ m₂ t₁ t₂, ?_⟩
  simp [Multihash.hashInput, Prod.ext_iff]

/-- C8 witness: the characterisation applied to a wrap-constructed
multihash. -/
theorem claim_C8_witness :
    (exMh = exMh ↔ exMh.code = exMh.code ∧ exMh.digestPart = exMh.digestPart) ∧
    (exMh.hashInput = exMh.hashInput ↔
      exMh.code = exMh.code ∧ exMh.digestPart = exMh.digestPart) :=
  claim_C8 exMh exMh (Or.inl ⟨5, [1, 2, 3], by decide⟩)
    (Or.inl ⟨5, [1, 2, 3], by decide⟩)

/-- C9: DAG-JSON encode never errors on any IPLD value; non-finite
floats serialize as the JSON literal `null`, so decoding the encoding of
`Float(NaN)` yields `Null`, not a `Float`. -/
theorem claim_C9 :
    (∀ v : Ipld, dagJsonEncode v = .ok (encodeJson v)) ∧
    (∀ bits : Nat, f64IsFinite bits = false → encodeJson (.float bits) = .null) ∧
    decodeJson (encodeJson (.float nanBits)) = .ok .null := by
  refine ⟨fun v => rfl, fun bits h => ?_, by decide⟩
  simp [encodeJson, h]

/-- C9 witness: the non-finite branch at positive infinity, and encode
at `Null`. -/
theorem claim_C9_witness :
    encodeJson (.float infBits) = .null ∧
    dagJsonEncode Ipld.null = .ok (encodeJson .null) :=
  ⟨claim_C9.2.1 infBits (by decide), claim_C9.1 .null⟩

/-- C10: codec dispatch accepts every numeric code: `TryFrom<u64>` for
both `DagCborCodec` and `DagJsonCodec` always returns `Ok`, so the
`UnsupportedCodec` error is never produced. -/
theorem claim_C10 (n : Nat) :
    DagCborCodec.tryFrom n = .ok .mk ∧ DagJsonCodec.tryFrom n = .ok .mk :=
  ⟨rfl, rfl⟩


end SpIpld
